import Mathlib

/-!
Verification development for the moderation-bot core: a shallow embedding of
`profanity_filter.py` (lexicon, matcher, censor, severity), `media_manager.py`
(pending-media queue, approve/reject lifecycle, stale cleanup) and
`user_manager.py` (profile registry, display names) together with theorems
settling the behavioural claims about them.

Text is modelled as `List Char`.  Python's `re` patterns used by the filter are
all literal words decorated with the word-boundary anchor, so matching is
embedded directly: case folding models `re.IGNORECASE`, and the boundary test
models `\b` (a position whose two sides disagree on word-character-ness, where
`\w` covers ASCII alphanumerics, the underscore and the Arabic-script block
U+0600..U+06FF used by the Persian lexicon).  Timestamps are modelled as `Int`.
-/

/-- Word characters as Python's `\w` sees the characters occurring in this
program: ASCII alphanumerics, underscore, and the Arabic-script Unicode block
used by the Persian word lists. -/
def isWordChar (c : Char) : Bool :=
  c.isAlphanum || c == '_' || (0x600 ≤ c.toNat && c.toNat ≤ 0x6FF)

/-- Case folding of a text, modelling `re.IGNORECASE` (ASCII case only; the
Persian script has no case). -/
def foldCase (s : List Char) : List Char := s.map Char.toLower

/-- Whether position `i` of `t` holds a word character (out of range counts as
a non-word character, as at the ends of a string in `re`). -/
def isWordAt (t : List Char) (i : Nat) : Bool :=
  match t.get? i with
  | some c => isWordChar c
  | none => false

/-- The `\b` word-boundary test of `re` at position `i` of `t`: the character
classes on the two sides of the position differ. -/
def boundaryAt (t : List Char) (i : Nat) : Bool :=
  ((decide (i ≠ 0)) && isWordAt t (i - 1)) != isWordAt t i

/-- The four anchor shapes of the compiled patterns in `_compile_patterns`:
`\b w \b` (English), `\b w` and `w \b` and bare `w` (Persian). -/
inductive MatchKind where
  | bothB | leftB | rightB | plain
deriving DecidableEq

/-- Whether the (already case-folded) word `fw` matches the (already folded)
text `ft` at position `i` under the anchors of `k`. -/
def kindMatchAt (k : MatchKind) (fw ft : List Char) (i : Nat) : Bool :=
  fw.isPrefixOf (ft.drop i) &&
    (match k with
     | MatchKind.bothB => boundaryAt ft i && boundaryAt ft (i + fw.length)
     | MatchKind.leftB => boundaryAt ft i
     | MatchKind.rightB => boundaryAt ft (i + fw.length)
     | MatchKind.plain => true)

/-- Leftmost match position of the pattern for `fw` under anchors `k`, the
position `pattern.search` finds. -/
def firstMatchPos (k : MatchKind) (fw ft : List Char) : Option Nat :=
  (List.range (ft.length + 1)).find? (fun i => kindMatchAt k fw ft i)

/-- The sliceAt `t[i : i+n]`, i.e. `group(0)` of a match of length `n` at `i`. -/
def sliceAt (t : List Char) (i n : Nat) : List Char := (t.drop i).take n

/-- `pattern.search(text)` followed by `.group(0)` for the literal word `w`
anchored as `k`: the matched span of the original text, if any. -/
def searchWord (k : MatchKind) (w t : List Char) : Option (List Char) :=
  (firstMatchPos k (foldCase w) (foldCase t)).map (fun i => sliceAt t i w.length)

/-- The transliteration alternatives `_compile_patterns` attaches to the six
special Persian words (the `persian_latin` patterns). -/
def translitAlts (w : List Char) : Option (List (List Char)) :=
  if w = "کیر".toList then some ["kir".toList, "keer".toList, "kyr".toList]
  else if w = "کس".toList then some ["kos".toList, "koss".toList, "khas".toList]
  else if w = "جنده".toList then some ["jende".toList, "jande".toList, "jandeh".toList]
  else if w = "لاشی".toList then some ["lashi".toList, "lashy".toList]
  else if w = "حرومزاده".toList then some ["haroomzadeh".toList, "harumzadeh".toList]
  else if w = "کونی".toList then some ["kooni".toList, "kuni".toList]
  else none

/-- Search of an alternation pattern `\b(a1|a2|…)\b`: leftmost position at
which some alternative matches, alternatives tried in order, returning the
matched span of the original text. -/
def searchAlts (alts : List (List Char)) (t : List Char) : Option (List Char) :=
  (List.range (t.length + 1)).findSome? (fun i =>
    (alts.find? (fun a => kindMatchAt MatchKind.bothB (foldCase a) (foldCase t) i)).map
      (fun a => sliceAt t i a.length))

/-- The mutable lexicon of `ProfanityFilter`: the per-language word lists from
which `_compile_patterns` derives all patterns. -/
structure ProfanityWords where
  english : List (List Char)
  persian : List (List Char)
deriving DecidableEq

/-- The default English word list of `_load_profanity_words`. -/
def default_english : List (List Char) :=
  (["fuck", "shit", "damn", "bitch", "asshole", "bastard", "crap",
    "piss", "hell", "bloody", "stupid", "idiot", "moron", "dumb",
    "wtf", "omg", "lmao", "lol", "stfu", "gtfo", "fml", "bs"]).map String.toList

/-- The default Persian word list of `_load_profanity_words`. -/
def default_persian : List (List Char) :=
  (["کیر", "کس", "جنده", "لاشی", "حرومزاده", "کونی", "گاو", "خر",
    "احمق", "مسخره", "چرت", "مزخرف", "ریدم", "گه", "عن", "کثیف",
    "لعنتی", "بیناموس", "هرزه", "پدرسگ", "مادرجنده", "خارکسده", "کوسکش", "حرامزاده", "کسخل"]).map String.toList

/-- The lexicon the filter starts from when no word file exists. -/
def defaultWords : ProfanityWords := ProfanityWords.mk default_english default_persian

/-- The `group(0)` results accumulated from the English patterns, in lexicon
order, as `contains_profanity` collects them. -/
def englishFound (f : ProfanityWords) (t : List Char) : List (List Char) :=
  f.english.filterMap (fun w => searchWord MatchKind.bothB w t)

/-- The three Persian anchor shapes in the order `_compile_patterns` appends
them for each word. -/
def persianKinds : List MatchKind := [MatchKind.leftB, MatchKind.rightB, MatchKind.plain]

/-- The `group(0)` results accumulated from the Persian patterns, three
patterns per word in compilation order. -/
def persianFound (f : ProfanityWords) (t : List Char) : List (List Char) :=
  f.persian.flatMap (fun w => persianKinds.filterMap (fun k => searchWord k w t))

/-- The `group(0)` results accumulated from the `persian_latin`
transliteration patterns. -/
def latinFound (f : ProfanityWords) (t : List Char) : List (List Char) :=
  f.persian.filterMap (fun w => (translitAlts w).bind (fun alts => searchAlts alts t))

/-- All matches collected by `contains_profanity`, in pattern order. -/
def allFound (f : ProfanityWords) (t : List Char) : List (List Char) :=
  englishFound f t ++ persianFound f t ++ latinFound f t

/-- `ProfanityFilter.contains_profanity`: the flag `len(found_words) > 0`
together with `list(set(found_words))` (modelled as `dedup`, order aside). -/
def contains_profanity (f : ProfanityWords) (t : List Char) : Bool × List (List Char) :=
  (!(allFound f t).isEmpty, (allFound f t).dedup)

/-- One scanning pass of `pattern.sub` for a literal word pattern: `fw` is the
folded word, `wlen` its length, `ft` the folded input of the pass, `t` the
original input of the pass; matches are replaced by `wlen` copies of `mask`
and scanning resumes after the replaced span.  `fuel` bounds the recursion;
`t.length` suffices since every step advances. -/
def subFuel (k : MatchKind) (fw : List Char) (wlen : Nat) (ft t : List Char)
    (mask : Char) : Nat → Nat → List Char
  | 0, _ => []
  | fuel + 1, i =>
    if i < t.length then
      if kindMatchAt k fw ft i && decide (0 < wlen) then
        List.replicate wlen mask ++ subFuel k fw wlen ft t mask fuel (i + wlen)
      else
        (t.get? i).getD mask :: subFuel k fw wlen ft t mask fuel (i + 1)
    else []

/-- `pattern.sub(lambda m: mask * len(m.group(0)), t)` for the literal word
`w` anchored as `k`. -/
def subPass (k : MatchKind) (w t : List Char) (mask : Char) : List Char :=
  subFuel k (foldCase w) w.length (foldCase t) t mask t.length 0

/-- One scanning pass of `pattern.sub` for an alternation pattern
`\b(a1|a2|…)\b`: at each position the first matching alternative is replaced
by mask characters of its length. -/
def subAltsFuel (alts : List (List Char)) (ft t : List Char) (mask : Char) :
    Nat → Nat → List Char
  | 0, _ => []
  | fuel + 1, i =>
    if i < t.length then
      match alts.find? (fun a =>
          decide (0 < a.length) && kindMatchAt MatchKind.bothB (foldCase a) ft i) with
      | some a => List.replicate a.length mask ++ subAltsFuel alts ft t mask fuel (i + a.length)
      | none => (t.get? i).getD mask :: subAltsFuel alts ft t mask fuel (i + 1)
    else []

/-- The sub pass for a transliteration alternation pattern. -/
def subAltPass (alts : List (List Char)) (t : List Char) (mask : Char) : List Char :=
  subAltsFuel alts (foldCase t) t mask t.length 0

/-- The three Persian sub passes for one word, in compilation order. -/
def persianPass (w t : List Char) (mask : Char) : List Char :=
  subPass MatchKind.plain w (subPass MatchKind.rightB w (subPass MatchKind.leftB w t mask) mask) mask

/-- `ProfanityFilter.replace_profanity`: every English pattern's sub pass, then
every Persian word's three passes, then the transliteration passes. -/
def replace_profanity (f : ProfanityWords) (t : List Char) (mask : Char) : List Char :=
  let t1 := f.english.foldl (fun acc w => subPass MatchKind.bothB w acc mask) t
  let t2 := f.persian.foldl (fun acc w => persianPass w acc mask) t1
  f.persian.foldl (fun acc w =>
    match translitAlts w with
    | some alts => subAltPass alts acc mask
    | none => acc) t2

/-- The `high_severity_words` list of `get_severity_score`. -/
def high_severity_words : List (List Char) :=
  (["fuck", "کیر", "کس", "jende", "kir", "kos", "حرامزاده", "کوسکش"]).map String.toList

/-- Python's substring test `w in t`. -/
def containsSub (w t : List Char) : Bool :=
  (List.range (t.length + 1)).any (fun i => w.isPrefixOf (t.drop i))

/-- Whether a matched term earns the high-severity bonus: some designated root
word occurs inside its lower-cased form (`any(severe in word.lower() …)`). -/
def isHighSeverity (word : List Char) : Bool :=
  high_severity_words.any (fun sev => containsSub sev (foldCase word))

/-- `ProfanityFilter.get_severity_score`: `0` for clean text, otherwise twice
the number of distinct matched terms plus `3` per high-severity term, capped
at `10`. -/
def get_severity_score (f : ProfanityWords) (t : List Char) : Nat :=
  let found := (contains_profanity f t).2
  if !(contains_profanity f t).1 then 0
  else
    min (found.foldl (fun s word => if isHighSeverity word then s + 3 else s) (found.length * 2)) 10

/-- `ProfanityFilter.add_word`: append the word to its language list unless
already present (unknown language tags are a no-op). -/
def add_word (f : ProfanityWords) (w : List Char) (lang : String) : ProfanityWords :=
  if lang = "english" then
    if w ∈ f.english then f else ProfanityWords.mk (f.english ++ [w]) f.persian
  else if lang = "persian" then
    if w ∈ f.persian then f else ProfanityWords.mk f.english (f.persian ++ [w])
  else f

/-- `ProfanityFilter.remove_word`: remove the first occurrence of the word from
its language list, reporting whether anything was removed. -/
def remove_word (f : ProfanityWords) (w : List Char) (lang : String) : ProfanityWords × Bool :=
  if lang = "english" then
    if w ∈ f.english then (ProfanityWords.mk (f.english.erase w) f.persian, true) else (f, false)
  else if lang = "persian" then
    if w ∈ f.persian then (ProfanityWords.mk f.english (f.persian.erase w), true) else (f, false)
  else (f, false)

/-- The `PendingMedia` dataclass of `media_manager.py`. -/
structure PendingMedia where
  id : String
  user_id : Int
  username : String
  message_id : Int
  media_type : String
  file_id : String
  caption : String
  timestamp : Int
  approved : Option Bool
  admin_decision_time : Option Int
  admin_id : Option Int
deriving DecidableEq

/-- The `pending_media` dict of `MediaManager`, as its values in insertion
order; keys are the `id` fields, which the dict keeps unique. -/
abbrev MediaStore : Type := List PendingMedia

/-- `MediaManager.get_media`: dict lookup by id. -/
def get_media (s : MediaStore) (mid : String) : Option PendingMedia :=
  List.find? (fun m => m.id == mid) s

/-- `MediaManager.get_pending_media`: the items whose `approved` is still
`None`. -/
def get_pending_media (s : MediaStore) : List PendingMedia :=
  List.filter (fun m => m.approved == none) s

/-- `MediaManager._cleanup_old_media`: drop every item that is older than the
7-day cutoff and already carries a decision. -/
def cleanup_old_media (s : MediaStore) (now : Int) : MediaStore :=
  List.filter (fun m => !(decide (m.timestamp < now - 604800) && m.approved != none)) s

/-- `MediaManager.add_pending_media`: refuse when 100 items are already
pending, otherwise insert a fresh pending item (the generated uuid is passed
in as `newId`) and run the opportunistic cleanup. -/
def add_pending_media (s : MediaStore) (newId : String) (uid : Int) (uname : String)
    (mid : Int) (mtype fileId cap : String) (now : Int) : Option String × MediaStore :=
  if 100 ≤ (get_pending_media s).length then (none, s)
  else
    (some newId,
     cleanup_old_media (s ++ [PendingMedia.mk newId uid uname mid mtype fileId cap now none none none]) now)

/-- The mutation `approve_media`/`reject_media` perform on the found item
before removing it: record the decision, its time and the admin. -/
def setDecision (m : PendingMedia) (a : Bool) (now adminId : Int) : PendingMedia :=
  PendingMedia.mk m.id m.user_id m.username m.message_id m.media_type m.file_id
    m.caption m.timestamp (some a) (some now) (some adminId)

/-- `MediaManager.remove_processed_media`: delete the item if it exists and
carries a decision. -/
def remove_processed_media (s : MediaStore) (mid : String) : Bool × MediaStore :=
  match get_media s mid with
  | some m =>
    if m.approved != none then (true, List.filter (fun x => !(x.id == mid)) s) else (false, s)
  | none => (false, s)

/-- `MediaManager.approve_media` and `reject_media`, which differ only in the
recorded boolean: on a pending item, record the decision and then remove the
processed item; otherwise report failure and leave the store unchanged. -/
def decide_media (s : MediaStore) (mid : String) (a : Bool) (adminId now : Int) :
    Bool × MediaStore :=
  match get_media s mid with
  | some m =>
    if m.approved == none then
      (true,
       (remove_processed_media
         (List.map (fun x => if x.id == mid then setDecision x a now adminId else x) s) mid).2)
    else (false, s)
  | none => (false, s)

/-- `MediaManager.approve_media`. -/
def approve_media (s : MediaStore) (mid : String) (adminId now : Int) : Bool × MediaStore :=
  decide_media s mid true adminId now

/-- `MediaManager.reject_media`. -/
def reject_media (s : MediaStore) (mid : String) (adminId now : Int) : Bool × MediaStore :=
  decide_media s mid false adminId now

/-- The `UserProfile` dataclass of `user_manager.py` (a row of the `users`
table). -/
structure UserProfile where
  user_id : Int
  telegram_username : String
  display_name : String
  user_number : Nat
  registration_date : String
  message_count : Nat
  is_banned : Bool
deriving DecidableEq

/-- The `users` table: rows in insertion order; `user_id` is the primary key
and `display_name` and `user_number` carry UNIQUE constraints. -/
abbrev UserDB : Type := List UserProfile

/-- `UserManager.get_user_profile`: `SELECT * FROM users WHERE user_id = ?`. -/
def get_user_profile (db : UserDB) (uid : Int) : Option UserProfile :=
  List.find? (fun p => p.user_id == uid) db

/-- `UserManager._get_next_user_number`: `MAX(user_number)` (0 for an empty
table) plus one. -/
def next_user_number (db : UserDB) : Nat :=
  (List.map (fun p => p.user_number) db).foldr max 0 + 1

/-- The default display name `f"کاربر شماره {user_number}"`. -/
def default_display_name (n : Nat) : String :=
  "کاربر شماره " ++ toString n

/-- `UserManager.register_user`: return the existing profile if the id is
registered, otherwise insert a fresh row with the next sequential number and
the default display name.  `none` models the `IntegrityError` path (a UNIQUE
constraint on `display_name`/`user_number` fires and the code falls into its
self-recursive retry, which can never succeed on an unchanged table). -/
def register_user (db : UserDB) (uid : Int) (uname date : String) :
    Option (UserDB × UserProfile) :=
  match get_user_profile db uid with
  | some p => some (db, p)
  | none =>
    let n := next_user_number db
    let name := default_display_name n
    if List.any db (fun q => q.display_name == name || q.user_number == n) then none
    else
      let p := UserProfile.mk uid uname name n date 0 false
      some (db ++ [p], p)

/-- `UserManager.set_display_name`: `UPDATE users SET display_name = ? WHERE
user_id = ?`.  The update succeeds (even vacuously, when the id is missing)
unless a row of a different user already holds the name, in which case the
UNIQUE constraint raises and the table is left unchanged. -/
def set_display_name (db : UserDB) (uid : Int) (name : String) : Bool × UserDB :=
  if List.any db (fun p => p.user_id == uid) &&
     List.any db (fun p => !(p.user_id == uid) && p.display_name == name) then
    (false, db)
  else
    (true,
     List.map (fun p =>
       if p.user_id == uid then
         UserProfile.mk p.user_id p.telegram_username name p.user_number
           p.registration_date p.message_count p.is_banned
       else p) db)

/-- The concrete queue used for the C2 counterexample: five pending items, all
from submitter 7. -/
def quotaState : MediaStore :=
  (List.range 5).map (fun n => PendingMedia.mk (toString n) 7 "u" 1 "photo" "f" "" 0 none none none)

/-- The single-row table used for the C4 counterexample: user 1 has already
customised the display name to the non-default value "Alice". -/
def aliceDB : UserDB := [UserProfile.mk 1 "u" "Alice" 1 "2024-01-01" 0 false]

/-- The one-item queue used to witness C1. -/
def oneItem : PendingMedia := PendingMedia.mk "a" 1 "u" 1 "photo" "f" "" 0 none none none

/-- The 100-item pending queue used to witness the ceiling branch of C3. -/
def fullQueue : MediaStore := List.replicate 100 oneItem

/-- The profile created by registering user 7 on an empty table. -/
def regRow : UserProfile := UserProfile.mk 7 "u" (default_display_name 1) 1 "d" 0 false

/-- The severity formula exactly as the claim words it: 2 per distinct matched
term plus 3 for each matched term that is a MEMBER of the designated
high-severity root-word set, clipped to 10. -/
def claimed_severity (f : ProfanityWords) (t : List Char) : Nat :=
  if (contains_profanity f t).2.isEmpty then 0
  else
    min ((contains_profanity f t).2.length * 2 +
      3 * (List.filter (fun w => high_severity_words.contains (foldCase w))
            (contains_profanity f t).2).length) 10

/-- The severity formula as the code computes it: the +3 bonus goes to each
matched term that CONTAINS a designated root word as a substring of its
lower-cased form, not only to terms equal to a root word. -/
def amended_severity (f : ProfanityWords) (t : List Char) : Nat :=
  if (contains_profanity f t).2.isEmpty then 0
  else
    min ((contains_profanity f t).2.length * 2 +
      3 * (List.filter (fun w => isHighSeverity w) (contains_profanity f t).2).length) 10

/-- Whether no compiled pattern of lexicon `f` matches anywhere in `t`: no
English word matches with word boundaries, no Persian word occurs (the bare
substring pattern subsumes the two half-anchored ones), and no transliteration
alternation matches. -/
def no_pattern_matches (f : ProfanityWords) (t : List Char) : Bool :=
  List.all f.english (fun w => (searchWord MatchKind.bothB w t).isNone) &&
  List.all f.persian (fun w => (searchWord MatchKind.plain w t).isNone) &&
  List.all f.persian (fun w =>
    match translitAlts w with
    | some alts => (searchAlts alts t).isNone
    | none => true)

/-- The two-word lexicon used to witness C6's amended theorem. -/
def rtWords : ProfanityWords := ProfanityWords.mk ["fuck".toList] ["کس".toList]

theorem isEmpty_false_of_mem {α : Type} {a : α} {l : List α} (h : a ∈ l) :
    l.isEmpty = false := by
  cases l with
  | nil => cases h
  | cons x xs => rfl

theorem dedup_isEmpty {α : Type} [DecidableEq α] (l : List α) :
    l.dedup.isEmpty = l.isEmpty := by
  cases hl : l with
  | nil => rfl
  | cons x xs =>
    have h1 : l.dedup ≠ [] := by
      rw [Ne, List.dedup_eq_nil, hl]
      exact fun h => List.noConfusion h
    rw [hl] at h1
    cases hd : (x :: xs).dedup with
    | nil => exact absurd hd h1
    | cons y ys => rfl

/-- C10: for every lexicon state and text, the flag returned by
`contains_profanity` is true exactly when the returned matched-terms list is
non-empty, and that list never contains duplicates. -/
theorem classify_flag_coherent (f : ProfanityWords) (t : List Char) :
    (contains_profanity f t).1 = !(contains_profanity f t).2.isEmpty ∧
    (contains_profanity f t).2.Nodup := by
  refine ⟨?_, List.nodup_dedup _⟩
  show (!(allFound f t).isEmpty) = (!(allFound f t).dedup.isEmpty)
  rw [dedup_isEmpty]

/-- C5: the opportunistic purge `_cleanup_old_media` keeps an item exactly
when it is not both older than the 7-day window and already decided; in
particular every undecided item survives, however old. -/
theorem purge_stale_exact (s : MediaStore) (now : Int) (m : PendingMedia) :
    (m ∈ cleanup_old_media s now ↔
      m ∈ s ∧ ¬(m.timestamp < now - 604800 ∧ m.approved ≠ none)) ∧
    (m ∈ s → m.approved = none → m ∈ cleanup_old_media s now) := by
  have hpred : ∀ x : PendingMedia,
      ((!(decide (x.timestamp < now - 604800) && x.approved != none)) = true)
        ↔ ¬(x.timestamp < now - 604800 ∧ x.approved ≠ none) := by
    intro x
    cases ha : x.approved <;> simp [ha]
  constructor
  · unfold cleanup_old_media
    rw [List.mem_filter, hpred]
  · intro hm ha
    unfold cleanup_old_media
    rw [List.mem_filter, hpred]
    exact ⟨hm, fun hc => hc.2 ha⟩

/-- Witness for C5: an item eight days old but still undecided survives the
purge. -/
theorem purge_stale_exact_witness :
    PendingMedia.mk "a" 1 "u" 1 "photo" "f" "" 0 none none none ∈
      cleanup_old_media [PendingMedia.mk "a" 1 "u" 1 "photo" "f" "" 0 none none none] 691200 :=
  (purge_stale_exact _ 691200 _).2 (by decide) rfl

/-- C2 counterexample: submitter 7 already has five pending (`Unset`) items
and the global queue is far below its ceiling, yet `add_pending_media`
accepts a sixth submission from the same submitter — the code has no
per-submitter quota, so no `SubmitterQuotaExceeded` failure exists. -/
theorem submitter_quota_cx :
    (List.filter (fun m => m.user_id == 7) (get_pending_media quotaState)).length = 5 ∧
    (get_pending_media quotaState).length < 100 ∧
    (add_pending_media quotaState "x" 7 "u" 9 "photo" "f" "" 0).1 = some "x" := by decide

/-- C2 amended: `add_pending_media` succeeds whenever the global number of
pending items is below 100, regardless of how many pending items the
submitter already has. -/
theorem submit_has_no_submitter_quota (s : MediaStore) (newId : String) (uid : Int)
    (uname : String) (mid : Int) (mtype fileId cap : String) (now : Int)
    (h : (get_pending_media s).length < 100) :
    (add_pending_media s newId uid uname mid mtype fileId cap now).1 = some newId := by
  unfold add_pending_media
  rw [if_neg (by omega)]

/-- Witness for C2's amended theorem: the sixth submission of submitter 7 is
accepted. -/
theorem submit_has_no_submitter_quota_witness :
    (add_pending_media quotaState "y" 7 "u" 9 "photo" "f" "" 0).1 = some "y" :=
  submit_has_no_submitter_quota quotaState "y" 7 "u" 9 "photo" "f" "" 0 (by decide)

/-- C4 counterexample: although user 1's display name is already a non-default
value, a later `set_display_name` call with the different valid name "Bobby"
succeeds and rewrites the stored row — the code has no first-customization-wins
check. -/
theorem name_immutability_cx :
    (∀ n : Nat, n ≤ 1 → "Alice" ≠ default_display_name n) ∧
    (3 ≤ "Bobby".length ∧ "Bobby".length ≤ 20) ∧
    set_display_name aliceDB 1 "Bobby" =
      (true, [UserProfile.mk 1 "u" "Bobby" 1 "2024-01-01" 0 false]) := by decide

/-- C4 amended: `set_display_name` succeeds and overwrites the stored name
whenever no other user holds the requested name, regardless of any previously
customised non-default name; display names stay mutable. -/
theorem set_display_name_overwrites (db : UserDB) (uid : Int) (name : String)
    (h : List.all db (fun p => p.user_id == uid || !(p.display_name == name)) = true) :
    (set_display_name db uid name).1 = true ∧
    ∀ p ∈ (set_display_name db uid name).2, p.user_id = uid → p.display_name = name := by
  have hconf : List.any db (fun p => !(p.user_id == uid) && p.display_name == name) = false := by
    rw [List.any_eq_false]
    intro p hp
    have := List.all_eq_true.mp h p hp
    revert this
    cases hu : p.user_id == uid <;> cases hn : p.display_name == name <;> simp
  unfold set_display_name
  rw [hconf, Bool.and_false, if_neg (by exact fun hc => Bool.noConfusion hc)]
  refine ⟨rfl, ?_⟩
  intro p hp hpid
  rcases List.mem_map.mp hp with ⟨q, _, hq⟩
  by_cases hqu : q.user_id == uid
  · rw [if_pos hqu] at hq
    rw [← hq]
  · rw [if_neg hqu] at hq
    subst hq
    exact absurd (by exact beq_iff_eq.mpr hpid) hqu

/-- Witness for C4's amended theorem: overwriting "Alice" with "Bobby"
succeeds and the stored row carries the new name. -/
theorem set_display_name_overwrites_witness :
    (set_display_name aliceDB 1 "Bobby").1 = true ∧
    ∀ p ∈ (set_display_name aliceDB 1 "Bobby").2, p.user_id = 1 → p.display_name = "Bobby" :=
  set_display_name_overwrites aliceDB 1 "Bobby" (by decide)

theorem setDecision_id (m : PendingMedia) (a : Bool) (now adm : Int) :
    (setDecision m a now adm).id = m.id := rfl

theorem get_media_map_setDecision (s : MediaStore) (mid : String) (a : Bool) (now adm : Int) :
    get_media (List.map (fun x => if x.id == mid then setDecision x a now adm else x) s) mid
      = Option.map (fun m => setDecision m a now adm) (get_media s mid) := by
  induction s with
  | nil => rfl
  | cons h tl ih =>
    unfold get_media at ih ⊢
    cases hh : h.id == mid
    · rw [List.map_cons, if_neg (by simp [hh]), List.find?_cons_of_neg _ (by simp [hh]),
        List.find?_cons_of_neg _ (by simp [hh])]
      exact ih
    · rw [List.map_cons, if_pos (by simp [hh]),
        List.find?_cons_of_pos _ (by simp [setDecision_id, hh]),
        List.find?_cons_of_pos _ (by simp [hh])]
      rfl

theorem get_media_filter_out (s : MediaStore) (mid : String) :
    get_media (List.filter (fun x => !(x.id == mid)) s) mid = none := by
  apply List.find?_eq_none.mpr
  intro x hx
  have hkeep := (List.mem_filter.mp hx).2
  cases hid : x.id == mid
  · simp
  · rw [hid] at hkeep
    exact Bool.noConfusion hkeep

/-- C1: `approve_media`/`reject_media` (embedded jointly as `decide_media`,
with `a = true` for approval) succeed exactly once per item id: the first call
on a pending item returns success, after it no item with that id remains in
the store (so no decision field can ever be rewritten), and every further
decide call on the same id — approving or rejecting — fails and leaves the
store untouched. -/
theorem decide_exactly_once (s : MediaStore) (mid : String) (m : PendingMedia)
    (a b : Bool) (adm now adm2 now2 : Int)
    (hfind : get_media s mid = some m) (hpend : m.approved = none) :
    (decide_media s mid a adm now).1 = true ∧
    get_media (decide_media s mid a adm now).2 mid = none ∧
    decide_media (decide_media s mid a adm now).2 mid b adm2 now2 =
      (false, (decide_media s mid a adm now).2) := by
  have hset : (setDecision m a now adm).approved != none := by
    simp [setDecision]
  have hrm : remove_processed_media
      (List.map (fun x => if x.id == mid then setDecision x a now adm else x) s) mid
      = (true, List.filter (fun x => !(x.id == mid))
          (List.map (fun x => if x.id == mid then setDecision x a now adm else x) s)) := by
    unfold remove_processed_media
    rw [get_media_map_setDecision, hfind]
    show (if (setDecision m a now adm).approved != none then _ else _) = _
    rw [if_pos hset]
  have hd : decide_media s mid a adm now
      = (true, List.filter (fun x => !(x.id == mid))
          (List.map (fun x => if x.id == mid then setDecision x a now adm else x) s)) := by
    unfold decide_media
    rw [hfind]
    show (if m.approved == none then _ else _) = _
    rw [if_pos (by simp [hpend]), hrm]
  rw [hd]
  refine ⟨rfl, get_media_filter_out _ mid, ?_⟩
  show decide_media _ mid b adm2 now2 = _
  unfold decide_media
  rw [get_media_filter_out]

/-- Witness for C1: on a one-item queue, approving succeeds, the item is gone,
and a second rejection attempt fails without touching the store. -/
theorem decide_exactly_once_witness :
    (decide_media [oneItem] "a" true 9 5).1 = true ∧
    get_media (decide_media [oneItem] "a" true 9 5).2 "a" = none ∧
    decide_media (decide_media [oneItem] "a" true 9 5).2 "a" false 8 6 =
      (false, (decide_media [oneItem] "a" true 9 5).2) :=
  decide_exactly_once [oneItem] "a" oneItem true false 9 5 8 6 (by decide) rfl

theorem decide_media_eq (s : MediaStore) (mid : String) (m : PendingMedia) (a : Bool)
    (adm now : Int) (hfind : get_media s mid = some m) (hpend : m.approved = none) :
    decide_media s mid a adm now
      = (true, List.filter (fun x => !(x.id == mid))
          (List.map (fun x => if x.id == mid then setDecision x a now adm else x) s)) := by
  have hset : (setDecision m a now adm).approved != none := by
    simp [setDecision]
  have hrm : remove_processed_media
      (List.map (fun x => if x.id == mid then setDecision x a now adm else x) s) mid
      = (true, List.filter (fun x => !(x.id == mid))
          (List.map (fun x => if x.id == mid then setDecision x a now adm else x) s)) := by
    unfold remove_processed_media
    rw [get_media_map_setDecision, hfind]
    show (if (setDecision m a now adm).approved != none then _ else _) = _
    rw [if_pos hset]
  unfold decide_media
  rw [hfind]
  show (if m.approved == none then _ else _) = _
  rw [if_pos (by simp [hpend]), hrm]

theorem filter_out_map_setDecision (s : MediaStore) (mid : String) (a : Bool) (now adm : Int) :
    List.filter (fun x => !(x.id == mid))
      (List.map (fun x => if x.id == mid then setDecision x a now adm else x) s)
      = List.filter (fun x => !(x.id == mid)) s := by
  induction s with
  | nil => rfl
  | cons h tl ih =>
    rw [List.map_cons]
    cases hh : h.id == mid
    · rw [if_neg (by simp [hh]), List.filter_cons, List.filter_cons,
        if_pos (by simp [hh]), if_pos (by simp [hh]), ih]
    · rw [if_pos (by simp [hh]), List.filter_cons, List.filter_cons,
        if_neg (by simp [setDecision_id, hh]), if_neg (by simp [hh]), ih]

theorem pending_filter_out (s : MediaStore) (mid : String) (m : PendingMedia)
    (hnodup : (List.map (fun x => x.id) s).Nodup)
    (hfind : get_media s mid = some m) (hpend : m.approved = none) :
    (get_pending_media (List.filter (fun x => !(x.id == mid)) s)).length + 1
      = (get_pending_media s).length := by
  induction s with
  | nil => cases hfind
  | cons h tl ih =>
    rw [List.map_cons, List.nodup_cons] at hnodup
    cases hh : h.id == mid
    · have hfind' : get_media tl mid = some m := by
        unfold get_media at hfind ⊢
        rwa [List.find?_cons_of_neg _ (by simp [hh])] at hfind
      have hrec := ih hnodup.2 hfind'
      unfold get_pending_media at hrec ⊢
      rw [List.filter_cons, if_pos (by simp [hh]), List.filter_cons, List.filter_cons]
      cases hap : h.approved == none
      · rw [if_neg (fun hc => Bool.noConfusion hc), if_neg (fun hc => Bool.noConfusion hc)]
        exact hrec
      · rw [if_pos rfl, if_pos rfl, List.length_cons, List.length_cons]
        omega
    · have hm : m = h := by
        unfold get_media at hfind
        rw [List.find?_cons_of_pos _ (by simp [hh])] at hfind
        exact (Option.some.inj hfind).symm
      have hmid : h.id = mid := by simpa using hh
      have hfeq : List.filter (fun x => !(x.id == mid)) tl = tl := by
        apply List.filter_eq_self.mpr
        intro x hx
        cases hx' : x.id == mid
        · rfl
        · exfalso
          apply hnodup.1
          have hxm : x.id = mid := by simpa using hx'
          rw [hmid, ← hxm]
          exact List.mem_map.mpr ⟨x, hx, rfl⟩
      rw [List.filter_cons, if_neg (by simp [hh]), hfeq]
      unfold get_pending_media
      rw [List.filter_cons, if_pos (by rw [← hm]; simp [hpend]), List.length_cons]

/-- C3: submission succeeds while fewer than 100 items are pending; the
submission attempted when 100 are already pending (the one that would push the
pending count past the ceiling) fails and leaves the store exactly as it was;
and deciding one pending item shrinks the pending count by exactly one, so
exactly one submission slot frees. -/
theorem queue_ceiling_frees (s s2 s3 : MediaStore) (newId : String) (uid : Int)
    (uname : String) (mid0 : Int) (mtype fileId cap : String) (now : Int)
    (mid : String) (m : PendingMedia) (a : Bool) (adm dnow : Int) :
    ((get_pending_media s).length < 100 →
      (add_pending_media s newId uid uname mid0 mtype fileId cap now).1 = some newId) ∧
    (100 ≤ (get_pending_media s2).length →
      add_pending_media s2 newId uid uname mid0 mtype fileId cap now = (none, s2)) ∧
    ((List.map (fun x => x.id) s3).Nodup → get_media s3 mid = some m → m.approved = none →
      (get_pending_media (decide_media s3 mid a adm dnow).2).length + 1
        = (get_pending_media s3).length) := by
  refine ⟨?_, ?_, ?_⟩
  · intro h
    unfold add_pending_media
    rw [if_neg (by omega)]
  · intro h
    unfold add_pending_media
    rw [if_pos h]
  · intro hnd hfind hpend
    rw [decide_media_eq s3 mid m a adm dnow hfind hpend]
    show (get_pending_media (List.filter _ (List.map _ s3))).length + 1 = _
    rw [filter_out_map_setDecision]
    exact pending_filter_out s3 mid m hnd hfind hpend

/-- Witness for C3: an empty queue accepts a submission, a full queue refuses
one unchanged, and approving the only pending item frees one slot. -/
theorem queue_ceiling_frees_witness :
    (add_pending_media [] "x" 1 "u" 1 "photo" "f" "" 0).1 = some "x" ∧
    add_pending_media fullQueue "x" 1 "u" 1 "photo" "f" "" 0 = (none, fullQueue) ∧
    (get_pending_media (decide_media [oneItem] "a" false 9 5).2).length + 1
      = (get_pending_media [oneItem]).length :=
  ⟨(queue_ceiling_frees [] fullQueue [oneItem] "x" 1 "u" 1 "photo" "f" "" 0 "a" oneItem false 9 5).1
      (by decide),
   (queue_ceiling_frees [] fullQueue [oneItem] "x" 1 "u" 1 "photo" "f" "" 0 "a" oneItem false 9 5).2.1
      (by decide),
   (queue_ceiling_frees [] fullQueue [oneItem] "x" 1 "u" 1 "photo" "f" "" 0 "a" oneItem false 9 5).2.2
      (by decide) (by decide) rfl⟩

theorem le_foldr_max (l : List Nat) (x : Nat) (hx : x ∈ l) : x ≤ l.foldr max 0 := by
  induction l with
  | nil => cases hx
  | cons h tl ih =>
    rcases List.mem_cons.mp hx with rfl | hx'
    · exact le_max_left _ _
    · exact le_trans (ih hx') (le_max_right _ _)

/-- C9: `register_user` is idempotent — an id that already has a profile gets
exactly that profile back with the table untouched, a fresh id gets sequence
number `MAX(user_number) + 1` (hence `1` on an empty table) with the default
display name derived from it and a number no existing row holds, and a second
`register_user` call for the same id returns the very same profile and
table. -/
theorem register_user_idempotent (db db' : UserDB) (uid : Int) (un un2 d d2 : String)
    (p : UserProfile) (h : register_user db uid un d = some (db', p)) :
    register_user db' uid un2 d2 = some (db', p) ∧
    (∀ q, get_user_profile db uid = some q → db' = db ∧ p = q) ∧
    (get_user_profile db uid = none →
      p.user_number = next_user_number db ∧
      (db = [] → p.user_number = 1) ∧
      p.display_name = default_display_name p.user_number ∧
      p.user_number ∉ List.map (fun q => q.user_number) db) := by
  unfold register_user at h
  cases hg : get_user_profile db uid with
  | some q =>
    rw [hg] at h
    have hpair : (db, q) = (db', p) := Option.some.inj h
    obtain ⟨rfl, rfl⟩ : db' = db ∧ p = q :=
      ⟨(congrArg Prod.fst hpair).symm, (congrArg Prod.snd hpair).symm⟩
    refine ⟨?_, ?_, ?_⟩
    · unfold register_user
      rw [hg]
    · intro q' hq'
      exact ⟨rfl, Option.some.inj hq'⟩
    · intro hnone
      cases hnone
  | none =>
    rw [hg] at h
    dsimp only at h
    split at h
    · cases h
    · rename_i hcol
      injection h with hpair
      injection hpair with hdbeq hpeq
      have hnum : p.user_number = next_user_number db := by rw [← hpeq]
      have hname : p.display_name = default_display_name (next_user_number db) := by
        rw [← hpeq]
      refine ⟨?_, ?_, ?_⟩
      · have hfind : get_user_profile db' uid = some p := by
          rw [← hdbeq]
          unfold get_user_profile at hg ⊢
          rw [List.find?_append, hg]
          show (Option.none.or _) = some p
          rw [Option.none_or, List.find?_cons_of_pos _ (by simp), hpeq]
        unfold register_user
        rw [hfind]
      · intro q hq
        cases hq
      · intro _
        refine ⟨hnum, fun hemp => by rw [hnum, hemp]; rfl, by rw [hname, hnum], ?_⟩
        intro hmem
        have hle := le_foldr_max _ _ hmem
        rw [hnum] at hle
        unfold next_user_number at hle
        omega

/-- Witness for C9: registering user 7 again after a first registration on an
empty table returns the identical profile and leaves the table unchanged. -/
theorem register_user_idempotent_witness :
    register_user [regRow] 7 "x" "e" = some ([regRow], regRow) :=
  (register_user_idempotent [] [regRow] 7 "u" "x" "d" "e" regRow (by decide)).1

/-- C8 counterexample: on the default lexicon the text `کسخل` yields the two
distinct matched terms `کس` and `کسخل`; the code scores it 10 (both terms
receive the +3 bonus because each merely contains the root `کس`), while the
claim's membership reading scores it 7 (only `کس` itself belongs to the
high-severity set, of which `کسخل` is not a member). -/
theorem severity_membership_cx :
    "کسخل".toList ∈ (contains_profanity defaultWords "کسخل".toList).2 ∧
    "کسخل".toList ∉ high_severity_words ∧
    get_severity_score defaultWords "کسخل".toList = 10 ∧
    claimed_severity defaultWords "کسخل".toList = 7 := by decide

theorem foldl_bonus (l : List (List Char)) (b : Nat) :
    List.foldl (fun s word => if isHighSeverity word then s + 3 else s) b l
      = b + 3 * (List.filter (fun w => isHighSeverity w) l).length := by
  induction l generalizing b with
  | nil => simp
  | cons h tl ih =>
    rw [List.foldl_cons, List.filter_cons]
    cases hh : isHighSeverity h
    · rw [if_neg (by simp [hh]), if_neg (by simp [hh])]
      exact ih b
    · rw [if_pos rfl, if_pos rfl, ih (b + 3), List.length_cons]
      omega

/-- C8 amended: the severity score is 2 per distinct matched term plus 3 for
each matched term whose lower-cased form contains a designated high-severity
root word as a substring, clipped to 10; clean text scores 0 and any flagged
text scores at least 2. -/
theorem severity_score_amended (f : ProfanityWords) (t : List Char) :
    get_severity_score f t = amended_severity f t ∧
    ((contains_profanity f t).1 = false → get_severity_score f t = 0) ∧
    ((contains_profanity f t).1 = true → 2 ≤ get_severity_score f t) := by
  refine ⟨?_, ?_, ?_⟩
  · unfold get_severity_score amended_severity
    show (if (!(!(allFound f t).isEmpty)) = true then _ else _) = _
    rw [Bool.not_not]
    show _ = (if ((allFound f t).dedup.isEmpty) = true then _ else _)
    rw [dedup_isEmpty]
    cases hE : (allFound f t).isEmpty
    · rw [if_neg (fun hc => Bool.noConfusion hc), if_neg (fun hc => Bool.noConfusion hc),
        foldl_bonus]
    · rw [if_pos rfl, if_pos rfl]
  · intro hflag
    unfold get_severity_score
    rw [hflag]
    rfl
  · intro hflag
    unfold get_severity_score
    rw [hflag]
    show 2 ≤ (if (!true) = true then 0 else _)
    rw [if_neg (fun hc => Bool.noConfusion hc), foldl_bonus]
    have hlen : 1 ≤ (contains_profanity f t).2.length := by
      have hne : allFound f t ≠ [] := by
        intro hc
        have : (contains_profanity f t).1 = false := by
          show (!(allFound f t).isEmpty) = false
          rw [hc]
          rfl
        rw [hflag] at this
        cases this
      have hdne : (allFound f t).dedup ≠ [] := fun hc => hne ((List.dedup_eq_nil _).mp hc)
      exact List.length_pos.mpr hdne
    exact le_min_iff.mpr ⟨by omega, by omega⟩

/-- Witness for C8's amended theorem: on the default lexicon a clean text
scores 0 and the flagged text of the spec's own example scores at least 2. -/
theorem severity_score_amended_witness :
    get_severity_score defaultWords "hello there".toList = 0 ∧
    2 ≤ get_severity_score defaultWords "This is fuck.".toList :=
  ⟨(severity_score_amended defaultWords "hello there".toList).2.1 (by decide),
   (severity_score_amended defaultWords "This is fuck.".toList).2.2 (by decide)⟩

theorem isPrefixOf_self (l : List Char) : l.isPrefixOf l = true :=
  List.isPrefixOf_iff_prefix.mpr (List.prefix_refl l)

theorem searchWord_isSome_of_match_zero (k : MatchKind) (w t : List Char)
    (h : kindMatchAt k (foldCase w) (foldCase t) 0 = true) :
    (searchWord k w t).isSome = true := by
  unfold searchWord firstMatchPos
  rw [List.range_succ_eq_map, List.find?_cons_of_pos _ h]
  rfl

theorem flagged_of_allFound_ne (f : ProfanityWords) (t : List Char)
    (h : allFound f t ≠ []) : (contains_profanity f t).1 = true := by
  show (!(allFound f t).isEmpty) = true
  cases hA : allFound f t
  · exact absurd hA h
  · rfl

theorem kindMatchAt_plain_of (k : MatchKind) (fw ft : List Char) (i : Nat)
    (h : kindMatchAt k fw ft i = true) : kindMatchAt MatchKind.plain fw ft i = true := by
  unfold kindMatchAt at h ⊢
  rw [Bool.and_eq_true] at h
  rw [h.1]
  rfl

theorem searchWord_eq_none_of_plain (w t : List Char) (k : MatchKind)
    (h : searchWord MatchKind.plain w t = none) : searchWord k w t = none := by
  unfold searchWord at h ⊢
  have h0 : firstMatchPos MatchKind.plain (foldCase w) (foldCase t) = none := by
    cases hf : firstMatchPos MatchKind.plain (foldCase w) (foldCase t)
    · rfl
    · rw [hf] at h
      cases h
  have hk : firstMatchPos k (foldCase w) (foldCase t) = none := by
    unfold firstMatchPos at h0 ⊢
    rw [List.find?_eq_none] at h0 ⊢
    intro i hi hmatch
    exact h0 i hi (kindMatchAt_plain_of k _ _ i hmatch)
  rw [hk]
  rfl

theorem not_flagged_of_no_pattern (g : ProfanityWords) (t : List Char)
    (h : no_pattern_matches g t = true) : (contains_profanity g t).1 = false := by
  unfold no_pattern_matches at h
  rw [Bool.and_eq_true, Bool.and_eq_true] at h
  obtain ⟨⟨he, hp⟩, hl⟩ := h
  have hE : englishFound g t = [] := by
    rw [englishFound, List.filterMap_eq_nil_iff]
    intro a ha
    exact Option.isNone_iff_eq_none.mp (List.all_eq_true.mp he a ha)
  have hplain : ∀ a ∈ g.persian, searchWord MatchKind.plain a t = none := fun a ha =>
    Option.isNone_iff_eq_none.mp (List.all_eq_true.mp hp a ha)
  have hP : persianFound g t = [] := by
    rw [persianFound, List.flatMap_eq_nil_iff]
    intro a ha
    rw [List.filterMap_eq_nil_iff]
    intro k _
    exact searchWord_eq_none_of_plain a t k (hplain a ha)
  have hL : latinFound g t = [] := by
    rw [latinFound, List.filterMap_eq_nil_iff]
    intro a ha
    have hh := List.all_eq_true.mp hl a ha
    cases htr : translitAlts a with
    | none => rfl
    | some alts =>
      rw [htr] at hh
      show searchAlts alts t = none
      exact Option.isNone_iff_eq_none.mp hh
  show (!(allFound g t).isEmpty) = false
  unfold allFound
  rw [hE, hP, hL]
  rfl

/-- C6 amended: every Persian lexicon word is flagged by `classify` of itself,
and so is every English lexicon word that begins and ends with word characters
(as all real words do); after `remove_word(w, L)` the word's own patterns are
gone, so `classify(w)` no longer flags `w` provided no other remaining
lexicon word or transliteration pattern matches inside `w` — Persian matching
is substring-based, so a removed word containing another lexicon word as a
substring is still flagged. -/
theorem lexicon_roundtrip_amended (f : ProfanityWords) (w : List Char) (lang : String) :
    (w ∈ f.persian → (contains_profanity f w).1 = true) ∧
    (w ∈ f.english → (foldCase w).head?.any isWordChar = true →
      (foldCase w).getLast?.any isWordChar = true →
      (contains_profanity f w).1 = true) ∧
    (no_pattern_matches (remove_word f w lang).1 w = true →
      (contains_profanity (remove_word f w lang).1 w).1 = false) := by
  refine ⟨?_, ?_, ?_⟩
  · intro hw
    have hs : (searchWord MatchKind.plain w w).isSome = true := by
      apply searchWord_isSome_of_match_zero
      show ((foldCase w).isPrefixOf ((foldCase w).drop 0) && true) = true
      rw [List.drop_zero, isPrefixOf_self]
      rfl
    obtain ⟨v, hv⟩ := Option.isSome_iff_exists.mp hs
    have hmem : v ∈ persianFound f w :=
      List.mem_flatMap.mpr ⟨w, hw, List.mem_filterMap.mpr ⟨MatchKind.plain, by decide, hv⟩⟩
    apply flagged_of_allFound_ne
    apply List.ne_nil_of_mem (a := v)
    unfold allFound
    exact List.mem_append.mpr (Or.inl (List.mem_append.mpr (Or.inr hmem)))
  · intro hw hhead hlast
    obtain ⟨c, hc, hcw⟩ : ∃ c, (foldCase w).head? = some c ∧ isWordChar c = true := by
      cases hh : (foldCase w).head? with
      | none => rw [hh] at hhead; cases hhead
      | some c =>
        refine ⟨c, rfl, ?_⟩
        rw [hh] at hhead
        simpa using hhead
    obtain ⟨d, hd, hdw⟩ : ∃ d, (foldCase w).getLast? = some d ∧ isWordChar d = true := by
      cases hh : (foldCase w).getLast? with
      | none => rw [hh] at hlast; cases hlast
      | some d =>
        refine ⟨d, rfl, ?_⟩
        rw [hh] at hlast
        simpa using hlast
    have hne : foldCase w ≠ [] := by
      intro h0
      rw [h0] at hc
      cases hc
    have hlen0 : (foldCase w).length ≠ 0 := fun h0 => hne (List.eq_nil_of_length_eq_zero h0)
    have hget0 : (foldCase w).get? 0 = some c := by
      rw [List.get?_eq_getElem?, ← List.head?_eq_getElem?]
      exact hc
    have hW0 : isWordAt (foldCase w) 0 = true := by
      unfold isWordAt
      rw [hget0]
      exact hcw
    have hgetL : (foldCase w).get? ((foldCase w).length - 1) = some d := by
      rw [List.get?_eq_getElem?, ← List.getLast?_eq_getElem?]
      exact hd
    have hWl : isWordAt (foldCase w) ((foldCase w).length - 1) = true := by
      unfold isWordAt
      rw [hgetL]
      exact hdw
    have hWend : isWordAt (foldCase w) (foldCase w).length = false := by
      unfold isWordAt
      rw [List.get?_eq_getElem?, List.getElem?_eq_none (le_refl _)]
    have hb0 : boundaryAt (foldCase w) 0 = true := by
      unfold boundaryAt
      rw [hW0]
      rfl
    have hbL : boundaryAt (foldCase w) (foldCase w).length = true := by
      unfold boundaryAt
      rw [hWl, hWend, decide_eq_true hlen0]
      rfl
    have hs : (searchWord MatchKind.bothB w w).isSome = true := by
      apply searchWord_isSome_of_match_zero
      show ((foldCase w).isPrefixOf ((foldCase w).drop 0) &&
        (boundaryAt (foldCase w) 0 && boundaryAt (foldCase w) (0 + (foldCase w).length))) = true
      rw [List.drop_zero, isPrefixOf_self, hb0, Nat.zero_add, hbL]
      rfl
    obtain ⟨v, hv⟩ := Option.isSome_iff_exists.mp hs
    have hmem : v ∈ englishFound f w := List.mem_filterMap.mpr ⟨w, hw, hv⟩
    apply flagged_of_allFound_ne
    apply List.ne_nil_of_mem (a := v)
    unfold allFound
    exact List.mem_append.mpr (Or.inl (List.mem_append.mpr (Or.inl hmem)))
  · intro hnm
    exact not_flagged_of_no_pattern _ w hnm

/-- C6 counterexample: on the default lexicon, `مادرجنده` is flagged and
`remove_word` removes it, yet `classify` still flags it afterwards because the
shorter lexicon word `جنده` occurs inside it and Persian matching is
substring-based — the add/remove round-trip of the claim fails. -/
theorem lexicon_roundtrip_cx :
    "مادرجنده".toList ∈ defaultWords.persian ∧
    (contains_profanity defaultWords "مادرجنده".toList).1 = true ∧
    (remove_word defaultWords "مادرجنده".toList "persian").2 = true ∧
    "مادرجنده".toList ∉ ((remove_word defaultWords "مادرجنده".toList "persian").1).persian ∧
    "جنده".toList ∈ ((remove_word defaultWords "مادرجنده".toList "persian").1).persian ∧
    (contains_profanity (remove_word defaultWords "مادرجنده".toList "persian").1
      "مادرجنده".toList).1 = true := by decide

/-- Witness for C6's amended theorem: both lexicon words flag themselves, and
after removing "fuck" (no other pattern matching inside it) it is clean. -/
theorem lexicon_roundtrip_amended_witness :
    (contains_profanity rtWords "کس".toList).1 = true ∧
    (contains_profanity rtWords "fuck".toList).1 = true ∧
    (contains_profanity (remove_word rtWords "fuck".toList "english").1 "fuck".toList).1 = false :=
  ⟨(lexicon_roundtrip_amended rtWords "کس".toList "english").1 (by decide),
   (lexicon_roundtrip_amended rtWords "fuck".toList "english").2.1 (by decide) (by decide) (by decide),
   (lexicon_roundtrip_amended rtWords "fuck".toList "english").2.2 (by decide)⟩

theorem kindMatchAt_le (k : MatchKind) (fw ft : List Char) (i : Nat)
    (h : kindMatchAt k fw ft i = true) (hk : 0 < fw.length) : i + fw.length ≤ ft.length := by
  unfold kindMatchAt at h
  rw [Bool.and_eq_true] at h
  have hlen := (List.isPrefixOf_iff_prefix.mp h.1).length_le
  rw [List.length_drop] at hlen
  omega

theorem subFuel_length (k : MatchKind) (fw : List Char) (wlen : Nat) (ft t : List Char)
    (mask : Char) (hft : ft.length = t.length) (hwlen : wlen = fw.length) :
    ∀ fuel i, t.length - i ≤ fuel →
      (subFuel k fw wlen ft t mask fuel i).length = t.length - i := by
  intro fuel
  induction fuel with
  | zero =>
    intro i hi
    simp only [subFuel, List.length_nil]
    omega
  | succ n ih =>
    intro i hi
    simp only [subFuel]
    by_cases hlt : i < t.length
    · rw [if_pos hlt]
      by_cases hm : (kindMatchAt k fw ft i && decide (0 < wlen)) = true
      · rw [if_pos hm]
        rw [Bool.and_eq_true, decide_eq_true_eq] at hm
        have hle : i + fw.length ≤ ft.length :=
          kindMatchAt_le k fw ft i hm.1 (by omega)
        rw [List.length_append, List.length_replicate, ih (i + wlen) (by omega)]
        omega
      · rw [if_neg hm, List.length_cons, ih (i + 1) (by omega)]
        omega
    · rw [if_neg hlt, List.length_nil]
      omega

theorem subPass_length (k : MatchKind) (w t : List Char) (mask : Char) :
    (subPass k w t mask).length = t.length := by
  unfold subPass
  rw [subFuel_length k (foldCase w) w.length (foldCase t) t mask
    (List.length_map _ _) (List.length_map _ _).symm t.length 0 (by omega)]
  omega

theorem subAltsFuel_length (alts : List (List Char)) (ft t : List Char) (mask : Char)
    (hft : ft.length = t.length) :
    ∀ fuel i, t.length - i ≤ fuel →
      (subAltsFuel alts ft t mask fuel i).length = t.length - i := by
  intro fuel
  induction fuel with
  | zero =>
    intro i hi
    simp only [subAltsFuel, List.length_nil]
    omega
  | succ n ih =>
    intro i hi
    simp only [subAltsFuel]
    by_cases hlt : i < t.length
    · rw [if_pos hlt]
      cases hfind : alts.find? (fun a =>
          decide (0 < a.length) && kindMatchAt MatchKind.bothB (foldCase a) ft i) with
      | none =>
        rw [List.length_cons, ih (i + 1) (by omega)]
        omega
      | some a =>
        have hpa := List.find?_some hfind
        rw [Bool.and_eq_true, decide_eq_true_eq] at hpa
        have hla : (foldCase a).length = a.length := List.length_map _ _
        have hle : i + (foldCase a).length ≤ ft.length :=
          kindMatchAt_le _ _ _ _ hpa.2 (by omega)
        rw [List.length_append, List.length_replicate, ih (i + a.length) (by omega)]
        omega
    · rw [if_neg hlt, List.length_nil]
      omega

theorem subAltPass_length (alts : List (List Char)) (t : List Char) (mask : Char) :
    (subAltPass alts t mask).length = t.length := by
  unfold subAltPass
  rw [subAltsFuel_length alts (foldCase t) t mask (List.length_map _ _) t.length 0 (by omega)]
  omega

theorem persianPass_length (w t : List Char) (mask : Char) :
    (persianPass w t mask).length = t.length := by
  unfold persianPass
  rw [subPass_length, subPass_length, subPass_length]

theorem foldl_subPass_length (k : MatchKind) (ws : List (List Char)) (mask : Char) :
    ∀ t : List Char, (List.foldl (fun acc w => subPass k w acc mask) t ws).length = t.length := by
  induction ws with
  | nil => intro t; rfl
  | cons h tl ih =>
    intro t
    rw [List.foldl_cons, ih, subPass_length]

theorem foldl_persianPass_length (ws : List (List Char)) (mask : Char) :
    ∀ t : List Char, (List.foldl (fun acc w => persianPass w acc mask) t ws).length = t.length := by
  induction ws with
  | nil => intro t; rfl
  | cons h tl ih =>
    intro t
    rw [List.foldl_cons, ih, persianPass_length]

theorem foldl_latin_length (ws : List (List Char)) (mask : Char) :
    ∀ t : List Char, (List.foldl (fun acc w =>
      match translitAlts w with
      | some alts => subAltPass alts acc mask
      | none => acc) t ws).length = t.length := by
  induction ws with
  | nil => intro t; rfl
  | cons h tl ih =>
    intro t
    rw [List.foldl_cons]
    cases htr : translitAlts h with
    | none => exact ih t
    | some alts => rw [ih, subAltPass_length]

/-- C7 amended: `replace_profanity` always returns a text of exactly the
length of its input — every matched span is replaced by mask characters of the
span's own length; however re-classifying the censored output can still flag a
fully masked term, because masking an adjacent span may create a new word
boundary that exposes another occurrence of that term. -/
theorem censor_preserves_length (f : ProfanityWords) (t : List Char) (mask : Char) :
    (replace_profanity f t mask).length = t.length := by
  unfold replace_profanity
  rw [foldl_latin_length, foldl_persianPass_length, foldl_subPass_length]

set_option maxRecDepth 100000 in
/-- C7 counterexample: in `fuck کسfuck` the term `fuck` has exactly one
whole-word match, at position 0, and the censored output `**** **fuck` masks
it completely — yet classifying the censored output flags `fuck` again,
because masking the adjacent Persian word created a fresh word boundary before
the second, previously unmatched occurrence. -/
theorem censor_rematch_cx :
    ((List.range ("fuck کسfuck".toList.length + 1)).filter
        (fun i => kindMatchAt MatchKind.bothB (foldCase "fuck".toList)
          (foldCase "fuck کسfuck".toList) i)) = [0] ∧
    replace_profanity defaultWords "fuck کسfuck".toList '*' = "**** **fuck".toList ∧
    "fuck".toList ∈ (contains_profanity defaultWords
      (replace_profanity defaultWords "fuck کسfuck".toList '*')).2 := by decide
